import Mathlib

/-!
Verification of the linear magnetic inversion tutorial
(`docs/case-studies/PF/Linear_Problem_Mag.ipynb`).

The notebook drives the SimPEG framework: the forward operator
(`PF.Magnetics.MagneticIntegral` / `prob.fields`), the data misfit
(`DataMisfit.l2_DataMisfit`), the optimizer (`Optimization.ProjectedGNCG`),
the IRLS directive (`Directives.Update_IRLS`) and the active-cell map
(`Maps.InjectActiveCells`) live in the SimPEG library, outside this
repository sources; those components are modelled from the spec, with a
doc comment marking each such definition.  The cell-weight computation
(`wr`) and the active-index expression (`actv`) are notebook code and are
embedded directly.

Vectors are `List ℚ`, matrices are `List (List ℚ)` (row major); where the
spec requires real powers and square roots (`**0.5`, `**((p-2)/2)`) we pass
to `ℝ`.
-/

namespace MagTutorial

/-- Component-wise vector addition (numpy `m1 + m2`). -/
def vadd (a b : List ℚ) : List ℚ := List.zipWith (· + ·) a b

/-- Component-wise vector subtraction (numpy `a - b`). -/
def vsub (a b : List ℚ) : List ℚ := List.zipWith (· - ·) a b

/-- Component-wise vector product (numpy `a * b`). -/
def hadamard (a b : List ℚ) : List ℚ := List.zipWith (· * ·) a b

/-- Inner product of two vectors. -/
def dot (a b : List ℚ) : ℚ := (List.zipWith (· * ·) a b).sum

/-- Dense matrix-vector product, `G` given by its rows. -/
def matVec (G : List (List ℚ)) (m : List ℚ) : List ℚ :=
  G.map (fun r => dot r m)

/-- Squared Euclidean norm of a vector. -/
def normSq (v : List ℚ) : ℚ := (v.map (fun x => x ^ 2)).sum

/-- Component-wise reciprocal (numpy `1/wd`). -/
def recipVec (s : List ℚ) : List ℚ := s.map (fun x => 1 / x)

/-- Diagonal matrix with the given vector on the diagonal (`diag w`). -/
def diagMat : List ℚ → List (List ℚ)
  | [] => []
  | w :: ws => (w :: List.replicate ws.length 0) :: (diagMat ws).map (fun r => 0 :: r)

/-- Modelled from the spec: `prob.fields` of `PF.Magnetics.MagneticIntegral`
(not under `src/`): the linear forward map, the matrix-vector product of the
sensitivity matrix `G` with the susceptibility model (the notebook comment on
`prob.fields(mrec)` reads: this is matrix multiplication). -/
def fields (G : List (List ℚ)) (m : List ℚ) : List ℚ := matVec G m

/-- Modelled from the spec: the value of `DataMisfit.l2_DataMisfit` with
`dmis.W = 1/wd` (not under `src/`):
`misfit(m) = ||W (G·m − d_obs)||²` with `W` applied component-wise as the
reciprocal of the uncertainty vector. -/
def l2DataMisfitVal (G : List (List ℚ)) (dobs sigma m : List ℚ) : ℚ :=
  normSq (hadamard (recipVec sigma) (vsub (matVec G m) dobs))

theorem dot_nil_right (r : List ℚ) : dot r [] = 0 := by
  cases r <;> simp [dot]

theorem dot_replicate_zero (n : Nat) (v : List ℚ) :
    dot (List.replicate n 0) v = 0 := by
  induction n generalizing v with
  | zero => simp [dot]
  | succ k ih =>
    cases v with
    | nil => simp [dot]
    | cons b bs =>
      simp only [List.replicate_succ, dot, List.zipWith_cons_cons, List.sum_cons, zero_mul,
        zero_add]
      exact ih bs

theorem dot_vadd (r m1 m2 : List ℚ) (h : m1.length = m2.length) :
    dot r (vadd m1 m2) = dot r m1 + dot r m2 := by
  induction m1 generalizing m2 r with
  | nil =>
    cases m2 with
    | nil => simp [vadd, dot]
    | cons b bs => simp at h
  | cons a as ih =>
    cases m2 with
    | nil => simp at h
    | cons b bs =>
      cases r with
      | nil => simp [dot]
      | cons c cs =>
        simp only [List.length_cons, Nat.succ.injEq] at h
        simp only [vadd, dot, List.zipWith_cons_cons, List.sum_cons] at *
        rw [ih cs bs h]
        ring

theorem matVec_vadd (G : List (List ℚ)) (m1 m2 : List ℚ) (h : m1.length = m2.length) :
    matVec G (vadd m1 m2) = vadd (matVec G m1) (matVec G m2) := by
  induction G with
  | nil => simp [matVec, vadd]
  | cons r rs ih =>
    show dot r (vadd m1 m2) :: matVec rs (vadd m1 m2) =
      (dot r m1 + dot r m2) :: vadd (matVec rs m1) (matVec rs m2)
    rw [dot_vadd r m1 m2 h, ih]

/-- Claim C1: The forward map is exactly linear: for model vectors of equal
length, `prob.fields (m1 + m2) = prob.fields m1 + prob.fields m2`, and the
predicted data vector for any model `m` is the matrix-vector product `G·m`. -/
theorem fields_linear (G : List (List ℚ)) (m1 m2 : List ℚ)
    (h : m1.length = m2.length) :
    fields G (vadd m1 m2) = vadd (fields G m1) (fields G m2) ∧
      ∀ m : List ℚ, fields G m = matVec G m := by
  refine ⟨matVec_vadd G m1 m2 h, fun m => rfl⟩

theorem fields_linear_witness :
    ([(1 : ℚ), 2]).length = ([(3 : ℚ), 4]).length ∧
      (fields [[(1 : ℚ), 1]] (vadd [(1 : ℚ), 2] [(3 : ℚ), 4]) =
          vadd (fields [[(1 : ℚ), 1]] [(1 : ℚ), 2]) (fields [[(1 : ℚ), 1]] [(3 : ℚ), 4]) ∧
        ∀ m : List ℚ, fields [[(1 : ℚ), 1]] m = matVec [[(1 : ℚ), 1]] m) :=
  ⟨rfl, fields_linear [[(1 : ℚ), 1]] [(1 : ℚ), 2] [(3 : ℚ), 4] rfl⟩

theorem matVec_diagMat (w v : List ℚ) (h : w.length = v.length) :
    matVec (diagMat w) v = hadamard w v := by
  induction w generalizing v with
  | nil =>
    cases v with
    | nil => rfl
    | cons b bs => simp at h
  | cons a as ih =>
    cases v with
    | nil => simp at h
    | cons b bs =>
      simp only [List.length_cons, Nat.succ.injEq] at h
      show dot (a :: List.replicate as.length 0) (b :: bs) ::
            matVec ((diagMat as).map (fun r => 0 :: r)) (b :: bs) =
          a * b :: hadamard as bs
      have h1 : dot (a :: List.replicate as.length 0) (b :: bs) = a * b := by
        show a * b + dot (List.replicate as.length 0) bs = a * b
        rw [dot_replicate_zero]; ring
      have h2 : matVec ((diagMat as).map (fun r => 0 :: r)) (b :: bs) =
          matVec (diagMat as) bs := by
        simp only [matVec, List.map_map]
        refine List.map_congr_left (fun r _ => ?_)
        show dot (0 :: r) (b :: bs) = dot r bs
        show 0 * b + dot r bs = dot r bs
        ring
      rw [h1, h2, ih bs h]

/-- Claim C2: The value of the data-misfit evaluator at any model `m` equals
`||W (G·m − d_obs)||²` where `W = diag(1/σ)` is the diagonal matrix of
reciprocal uncertainties, whenever `G`, `d_obs` and `σ` have matching
row counts. -/
theorem l2DataMisfit_eq_weighted_normSq (G : List (List ℚ)) (dobs sigma m : List ℚ)
    (hG : G.length = dobs.length) (hs : sigma.length = dobs.length) :
    l2DataMisfitVal G dobs sigma m =
      normSq (matVec (diagMat (recipVec sigma)) (vsub (matVec G m) dobs)) := by
  have hlen : (recipVec sigma).length = (vsub (matVec G m) dobs).length := by
    simp [recipVec, vsub, matVec, hG, hs]
  rw [matVec_diagMat _ _ hlen]
  rfl

theorem l2DataMisfit_eq_weighted_normSq_witness :
    (([[(1 : ℚ), 1]] : List (List ℚ)).length = ([(2 : ℚ)]).length ∧
        ([(1 : ℚ)]).length = ([(2 : ℚ)]).length) ∧
      l2DataMisfitVal [[(1 : ℚ), 1]] [(2 : ℚ)] [(1 : ℚ)] [(3 : ℚ), 4] =
        normSq (matVec (diagMat (recipVec [(1 : ℚ)]))
          (vsub (matVec [[(1 : ℚ), 1]] [(3 : ℚ), 4]) [(2 : ℚ)])) :=
  ⟨⟨rfl, rfl⟩, l2DataMisfit_eq_weighted_normSq [[(1 : ℚ), 1]] [(2 : ℚ)] [(1 : ℚ)]
    [(3 : ℚ), 4] rfl rfl⟩

/-- A constructed data-misfit evaluator: the survey data and the validated
uncertainty vector. -/
structure L2DataMisfit where
  dobs : List ℚ
  sigma : List ℚ

/-- Modelled from the spec: construction of `DataMisfit.l2_DataMisfit`
(not under `src/`): malformed input with a non-positive uncertainty entry is
rejected immediately at construction time, before any forward evaluation. -/
def mkL2DataMisfit (dobs sigma : List ℚ) : Except String L2DataMisfit :=
  if sigma.any (fun x => decide (x ≤ 0)) then
    Except.error "uncertainty vector has a non-positive entry"
  else
    Except.ok ⟨dobs, sigma⟩

/-- Claim C3: Constructing the data-misfit evaluator fails (returns an error,
with no forward evaluation involved) exactly when the uncertainty vector
contains a non-positive entry. -/
theorem mkL2DataMisfit_error_iff (dobs sigma : List ℚ) :
    (∃ e, mkL2DataMisfit dobs sigma = Except.error e) ↔ ∃ x ∈ sigma, x ≤ 0 := by
  constructor
  · rintro ⟨e, he⟩
    by_contra hpos
    push_neg at hpos
    have hany : sigma.any (fun x => decide (x ≤ 0)) = false := by
      simp only [List.any_eq_false, decide_eq_true_eq]
      intro x hx
      exact not_le.mpr (hpos x hx)
    simp [mkL2DataMisfit, hany] at he
  · rintro ⟨x, hx, hle⟩
    have hany : sigma.any (fun x => decide (x ≤ 0)) = true := by
      simp only [List.any_eq_true, decide_eq_true_eq]
      exact ⟨x, hx, hle⟩
    refine ⟨"uncertainty vector has a non-positive entry", ?_⟩
    simp [mkL2DataMisfit, hany]

/-- Modelled from the spec: the PROJECT phase of
`Optimization.ProjectedGNCG` (not under `src/`): clip one component to the
box `[lo, hi]`. -/
def clip1 (lo hi x : ℚ) : ℚ := min (max x lo) hi

/-- Modelled from the spec: component-wise projection of a model onto the
box constraint `[lo, hi]`. -/
def boxProject (lo hi : ℚ) (m : List ℚ) : List ℚ := m.map (clip1 lo hi)

/-- Modelled from the spec: one outer Gauss-Newton iteration of
`Optimization.ProjectedGNCG` (not under `src/`): the (approximate) step `d`
is added to the model and the result is clipped to `[lo, hi]`
component-wise; the inner CG solve and line search only choose `d`. -/
def gnOuterStep (lo hi : ℚ) (m d : List ℚ) : List ℚ := boxProject lo hi (vadd m d)

/-- Modelled from the spec: the sequence of iterates produced by the outer
loop from a feasible starting point (INIT projects the given start model), one per
outer iteration, given the steps the inner solves produced. -/
def gnIterates (lo hi : ℚ) : List ℚ → List (List ℚ) → List (List ℚ)
  | _, [] => []
  | m, d :: ds => gnOuterStep lo hi m d :: gnIterates lo hi (gnOuterStep lo hi m d) ds

/-- Modelled from the spec: the model returned by `inv.run`: the last outer
iterate (or the projected start model when no iteration ran). -/
def gnRun (lo hi : ℚ) (m0 : List ℚ) (ds : List (List ℚ)) : List ℚ :=
  (gnIterates lo hi (boxProject lo hi m0) ds).getLastD (boxProject lo hi m0)

theorem clip1_mem (lo hi x : ℚ) (h : lo ≤ hi) :
    lo ≤ clip1 lo hi x ∧ clip1 lo hi x ≤ hi := by
  unfold clip1
  constructor
  · exact le_min (le_max_right x lo) h
  · exact min_le_right _ _

theorem boxProject_mem (lo hi : ℚ) (m : List ℚ) (h : lo ≤ hi) :
    ∀ x ∈ boxProject lo hi m, lo ≤ x ∧ x ≤ hi := by
  intro x hx
  simp only [boxProject, List.mem_map] at hx
  obtain ⟨y, _, rfl⟩ := hx
  exact clip1_mem lo hi y h

theorem gnIterates_mem (lo hi : ℚ) (h : lo ≤ hi) (m : List ℚ) (ds : List (List ℚ)) :
    ∀ mi ∈ gnIterates lo hi m ds, ∀ x ∈ mi, lo ≤ x ∧ x ≤ hi := by
  induction ds generalizing m with
  | nil => intro mi hmi; simp [gnIterates] at hmi
  | cons d ds ih =>
    intro mi hmi
    simp only [gnIterates, List.mem_cons] at hmi
    rcases hmi with rfl | hmi
    · exact boxProject_mem lo hi _ h
    · exact ih _ mi hmi

/-- Claim C4: With bounds `lower = 0`, `upper = 1`, every component of every
outer iterate of the projected Gauss-Newton optimizer lies in `[0, 1]`, for
every starting model and every sequence of inner steps; the returned model
`mrec` satisfies the same bounds. -/
theorem projGNCG_iterates_in_bounds (m0 : List ℚ) (ds : List (List ℚ)) :
    (∀ mi ∈ gnIterates 0 1 (boxProject 0 1 m0) ds, ∀ x ∈ mi, 0 ≤ x ∧ x ≤ 1) ∧
      ∀ x ∈ gnRun 0 1 m0 ds, 0 ≤ x ∧ x ≤ 1 := by
  have h01 : (0 : ℚ) ≤ 1 := by norm_num
  refine ⟨gnIterates_mem 0 1 h01 _ ds, ?_⟩
  intro x hx
  unfold gnRun at hx
  have hmem := List.getLastD_mem_cons (gnIterates 0 1 (boxProject 0 1 m0) ds)
      (boxProject 0 1 m0)
  rcases List.mem_cons.mp hmem with heq | hmem2
  · rw [heq] at hx
    exact boxProject_mem 0 1 m0 h01 x hx
  · exact gnIterates_mem 0 1 h01 _ ds _ hmem2 x hx

theorem projGNCG_iterates_in_bounds_witness :
    ((1 : ℚ) ∈ gnRun 0 1 [2] [[0]]) ∧ (0 ≤ (1 : ℚ) ∧ (1 : ℚ) ≤ 1) :=
  ⟨by norm_num [gnRun, gnIterates, gnOuterStep, boxProject, vadd, clip1],
    (projGNCG_iterates_in_bounds [2] [[0]]).2 1
      (by norm_num [gnRun, gnIterates, gnOuterStep, boxProject, vadd, clip1])⟩

/-- Squared L2 norm of column `j` of `G` (numpy `np.sum(prob.G**2., axis=0)`
at index `j`). -/
def colSumSq (G : List (List ℚ)) (j : Nat) : ℚ :=
  (G.map (fun r => (r.getD j 0) ^ 2)).sum

/-- The vector of column L2 norms of `G` (notebook
`wr = np.sum(prob.G**2.,axis=0)**0.5`), as real numbers. -/
noncomputable def colNorms (G : List (List ℚ)) (nc : Nat) : List ℝ :=
  (List.range nc).map (fun j => Real.sqrt ((colSumSq G j : ℚ) : ℝ))

/-- Maximum entry of the column-norm vector (numpy `np.max(wr)`), as a fold
starting from `0` (all entries are nonnegative). -/
noncomputable def wrMax (G : List (List ℚ)) (nc : Nat) : ℝ :=
  (colNorms G nc).foldr max 0

/-- The cell-weight vector of the notebook: `wr = wr / np.max(wr)` applied to the
column-norm vector. -/
noncomputable def wrVec (G : List (List ℚ)) (nc : Nat) : List ℝ :=
  (colNorms G nc).map (fun x => x / wrMax G nc)

theorem le_foldr_max (l : List ℝ) (x : ℝ) (hx : x ∈ l) : x ≤ l.foldr max 0 := by
  induction l with
  | nil => simp at hx
  | cons a as ih =>
    rcases List.mem_cons.mp hx with rfl | hmem
    · exact le_max_left _ _
    · exact le_trans (ih hmem) (le_max_right _ _)

theorem foldr_max_mem (l : List ℝ) (hpos : 0 < l.foldr max 0) : l.foldr max 0 ∈ l := by
  induction l with
  | nil => simp at hpos
  | cons a as ih =>
    simp only [List.foldr_cons]
    rcases max_cases a (as.foldr max 0) with ⟨heq, _⟩ | ⟨heq, hlt⟩
    · rw [heq]; exact List.mem_cons_self _ _
    · rw [heq]
      refine List.mem_cons_of_mem _ (ih ?_)
      simpa only [List.foldr_cons, heq] using hpos

theorem colNorms_nonneg (G : List (List ℚ)) (nc : Nat) :
    ∀ x ∈ colNorms G nc, 0 ≤ x := by
  intro x hx
  simp only [colNorms, List.mem_map] at hx
  obtain ⟨j, _, rfl⟩ := hx
  exact Real.sqrt_nonneg _

/-- Claim C5: Provided some column of `G` is nonzero, the cell-weight vector
`wr` (column-wise L2 norms of `G` divided by their maximum) has every
component in `[0, 1]`, and at least one component equals exactly `1`. -/
theorem wrVec_bounds (G : List (List ℚ)) (nc : Nat)
    (h : ∃ j, j < nc ∧ 0 < colSumSq G j) :
    (∀ x ∈ wrVec G nc, 0 ≤ x ∧ x ≤ 1) ∧ ∃ x ∈ wrVec G nc, x = 1 := by
  obtain ⟨j, hj, hpos⟩ := h
  have hjmem : Real.sqrt ((colSumSq G j : ℚ) : ℝ) ∈ colNorms G nc := by
    simp only [colNorms, List.mem_map]
    exact ⟨j, List.mem_range.mpr hj, rfl⟩
  have hsq : (0 : ℝ) < ((colSumSq G j : ℚ) : ℝ) := by exact_mod_cast hpos
  have hsqrt : (0 : ℝ) < Real.sqrt ((colSumSq G j : ℚ) : ℝ) := Real.sqrt_pos.mpr hsq
  have hmaxpos : 0 < wrMax G nc :=
    lt_of_lt_of_le hsqrt (le_foldr_max _ _ hjmem)
  constructor
  · intro x hx
    simp only [wrVec, List.mem_map] at hx
    obtain ⟨y, hy, rfl⟩ := hx
    refine ⟨div_nonneg (colNorms_nonneg G nc y hy) (le_of_lt hmaxpos), ?_⟩
    rw [div_le_one hmaxpos]
    exact le_foldr_max _ _ hy
  · refine ⟨wrMax G nc / wrMax G nc, ?_, div_self (ne_of_gt hmaxpos)⟩
    simp only [wrVec, List.mem_map]
    exact ⟨wrMax G nc, foldr_max_mem _ hmaxpos, rfl⟩

theorem wrVec_bounds_witness :
    (∃ j, j < 1 ∧ 0 < colSumSq [[(2 : ℚ)]] j) ∧
      ((∀ x ∈ wrVec [[(2 : ℚ)]] 1, 0 ≤ x ∧ x ≤ 1) ∧ ∃ x ∈ wrVec [[(2 : ℚ)]] 1, x = 1) :=
  ⟨⟨0, by norm_num, by norm_num [colSumSq]⟩,
    wrVec_bounds [[(2 : ℚ)]] 1 ⟨0, by norm_num, by norm_num [colSumSq]⟩⟩

/-- The regularization norms set in the notebook: `reg.norms = [0, 1, 1, 1]`
(smallness exponent then three directional smoothness exponents). -/
def regNorms : List ℝ := [0, 1, 1, 1]

/-- The small-residual threshold for the smallness term set in the notebook:
`reg.eps_p = 1e-3`. -/
noncomputable def epsP : ℝ := 1 / 1000

/-- The small-residual threshold for the smoothness terms, `1e-3` as in the
notebook (the notebook writes it to the attribute `eps_1`). -/
noncomputable def epsQ : ℝ := 1 / 1000

/-- Modelled from the spec: one diagonal entry of the IRLS reweighting
matrix `R_k` of `Regularization.Sparse` / `Directives.Update_IRLS`
(not under `src/`): `R_k[i] = (|∇_k m_i|² + ε_k²)^((p_k−2)/2)`. -/
noncomputable def irlsWeight (p e v : ℝ) : ℝ := (v ^ 2 + e ^ 2) ^ ((p - 2) / 2)

/-- Modelled from the spec: the diagonal of `R_k` over a vector `g` of
gradient (or model) values. -/
noncomputable def irlsWeightVec (p e : ℝ) (g : List ℝ) : List ℝ :=
  g.map (irlsWeight p e)

/-- Claim C6: For each threshold configured in the notebook (`ε_p` for the
smallness term, `ε_q` for the three smoothness terms) and each exponent in
`reg.norms = [0, 1, 1, 1]`, every diagonal entry of the IRLS reweighting
matrix computed from any current model is strictly positive. -/
theorem irlsWeightVec_pos (e : ℝ) (he : e = epsP ∨ e = epsQ) (p : ℝ)
    (hp : p ∈ regNorms) (g : List ℝ) :
    ∀ x ∈ irlsWeightVec p e g, 0 < x := by
  intro x hx
  simp only [irlsWeightVec, List.mem_map] at hx
  obtain ⟨v, _, rfl⟩ := hx
  have hbase : (0 : ℝ) < v ^ 2 + e ^ 2 := by
    have he2 : (0 : ℝ) < e ^ 2 := by
      rcases he with rfl | rfl <;> norm_num [epsP, epsQ]
    have hv2 : (0 : ℝ) ≤ v ^ 2 := sq_nonneg v
    linarith
  exact Real.rpow_pos_of_pos hbase _

theorem irlsWeightVec_pos_witness :
    ((epsP = epsP ∨ epsP = epsQ) ∧ (0 : ℝ) ∈ regNorms) ∧
      ∀ x ∈ irlsWeightVec 0 epsP [5], 0 < x :=
  ⟨⟨Or.inl rfl, by simp [regNorms]⟩,
    irlsWeightVec_pos epsP (Or.inl rfl) 0 (by simp [regNorms]) [5]⟩

/-- Modelled from the spec: `Maps.InjectActiveCells mesh actv -100`
(not under `src/`): map a reduced-space (active-cell) vector to the full
mesh, copying each active-cell value and assigning the sentinel `vFill` to
every inactive cell. -/
def injectActiveCells (actv : List Nat) (vFill : ℚ) (nFull : Nat) (m : List ℚ) : List ℚ :=
  (List.range nFull).map (fun i => if i ∈ actv then m.getD (actv.indexOf i) 0 else vFill)

/-- Modelled from the spec: restriction of a full-mesh vector back to the
active indices (numpy `v[actv]`). -/
def restrictActive (actv : List Nat) (v : List ℚ) : List ℚ :=
  actv.map (fun i => v.getD i 0)

theorem injectActiveCells_getD (actv : List Nat) (vFill : ℚ) (nFull : Nat)
    (m : List ℚ) (i : Nat) (hi : i < nFull) :
    (injectActiveCells actv vFill nFull m).getD i 0 =
      if i ∈ actv then m.getD (actv.indexOf i) 0 else vFill := by
  have hlen : i < (injectActiveCells actv vFill nFull m).length := by
    simpa [injectActiveCells] using hi
  rw [List.getD_eq_getElem _ _ hlen]
  simp [injectActiveCells]

/-- Claim C7: With sentinel `-100`: mapping a reduced vector to full-mesh
space assigns `-100` to every inactive cell, copies each active-cell value
unchanged, and is inverted by restriction to the active indices: restricting
the injected vector recovers the original reduced vector. -/
theorem injectActiveCells_spec (actv : List Nat) (nFull : Nat) (m : List ℚ)
    (hnd : actv.Nodup) (hlt : ∀ i ∈ actv, i < nFull) (hlen : m.length = actv.length) :
    (∀ i, i < nFull → i ∉ actv →
        (injectActiveCells actv (-100) nFull m).getD i 0 = -100) ∧
      (∀ i ∈ actv,
        (injectActiveCells actv (-100) nFull m).getD i 0 = m.getD (actv.indexOf i) 0) ∧
      restrictActive actv (injectActiveCells actv (-100) nFull m) = m := by
  refine ⟨?_, ?_, ?_⟩
  · intro i hi hni
    rw [injectActiveCells_getD actv (-100) nFull m i hi]
    simp [hni]
  · intro i hi
    rw [injectActiveCells_getD actv (-100) nFull m i (hlt i hi)]
    simp [hi]
  · have hstep : restrictActive actv (injectActiveCells actv (-100) nFull m) =
        actv.map (fun i => m.getD (actv.indexOf i) 0) := by
      unfold restrictActive
      refine List.map_congr_left (fun i hi => ?_)
      rw [injectActiveCells_getD actv (-100) nFull m i (hlt i hi)]
      simp [hi]
    rw [hstep]
    refine List.ext_getElem (by simpa using hlen.symm) (fun k h1 h2 => ?_)
    have hk : k < actv.length := by simpa using h1
    rw [List.getElem_map]
    rw [List.indexOf_getElem hnd k hk]
    exact List.getD_eq_getElem m 0 h2

theorem injectActiveCells_spec_witness :
    (([1, 2] : List Nat).Nodup ∧ (∀ i ∈ ([1, 2] : List Nat), i < 4) ∧
        ([(5 : ℚ), 7]).length = ([1, 2] : List Nat).length) ∧
      ((∀ i, i < 4 → i ∉ ([1, 2] : List Nat) →
          (injectActiveCells [1, 2] (-100) 4 [(5 : ℚ), 7]).getD i 0 = -100) ∧
        (∀ i ∈ ([1, 2] : List Nat),
          (injectActiveCells [1, 2] (-100) 4 [(5 : ℚ), 7]).getD i 0 =
            ([(5 : ℚ), 7]).getD (([1, 2] : List Nat).indexOf i) 0) ∧
        restrictActive [1, 2] (injectActiveCells [1, 2] (-100) 4 [(5 : ℚ), 7]) =
          [(5 : ℚ), 7]) :=
  ⟨⟨by decide, by decide, rfl⟩,
    injectActiveCells_spec [1, 2] 4 [(5 : ℚ), 7] (by decide) (by decide) rfl⟩

/-- The states of the IRLS schedule: smooth (`p = 2`) Gauss-Newton phase,
active sparse reweighting, and converged. -/
inductive IRLSMode where
  | preIRLS : IRLSMode
  | activeIRLS : IRLSMode
  | convergedIRLS : IRLSMode
  deriving DecidableEq, Repr

/-- What the schedule observes after one outer Gauss-Newton iteration: the
previous and new misfit values and the relative model change. -/
structure IRLSObs where
  fOld : ℚ
  fNew : ℚ
  mChange : ℚ
  deriving DecidableEq, Repr

/-- The state of the schedule: its mode and the number of completed smooth
Gauss-Newton iterations. -/
structure IRLSSched where
  mode : IRLSMode
  gnIter : Nat
  deriving DecidableEq, Repr

/-- The misfit has plateaued relative to the `f_min_change` threshold. -/
def fPlateau (fminChange : ℚ) (o : IRLSObs) : Prop :=
  |o.fNew - o.fOld| ≤ fminChange * |o.fOld|

instance (fminChange : ℚ) (o : IRLSObs) : Decidable (fPlateau fminChange o) := by
  unfold fPlateau; infer_instance

/-- Modelled from the spec: the post-iteration hook of
`Directives.Update_IRLS(f_min_change = 1e-3, minGNiter = 3)`
(not under `src/`): in the smooth phase the schedule counts completed
Gauss-Newton iterations and switches to active sparse reweighting only once
at least `minGNiter` of them are done and the misfit has plateaued; in the
active phase it declares convergence when the relative model change drops
below `mTol`. -/
def updateIRLS (minGNiter : Nat) (fminChange mTol : ℚ) (s : IRLSSched)
    (o : IRLSObs) : IRLSSched :=
  match s.mode with
  | IRLSMode.preIRLS =>
      if minGNiter ≤ s.gnIter + 1 ∧ fPlateau fminChange o then
        ⟨IRLSMode.activeIRLS, s.gnIter + 1⟩
      else
        ⟨IRLSMode.preIRLS, s.gnIter + 1⟩
  | IRLSMode.activeIRLS =>
      if o.mChange < mTol then ⟨IRLSMode.convergedIRLS, s.gnIter⟩
      else ⟨IRLSMode.activeIRLS, s.gnIter⟩
  | IRLSMode.convergedIRLS => s

/-- The initial state of the schedule: smooth phase, no iteration done. -/
def irlsInit : IRLSSched := ⟨IRLSMode.preIRLS, 0⟩

/-- The trace of schedule states over a run, one state per completed outer
iteration. -/
def irlsTrace (minGNiter : Nat) (fminChange mTol : ℚ) :
    IRLSSched → List IRLSObs → List IRLSSched
  | _, [] => []
  | s, o :: os =>
      updateIRLS minGNiter fminChange mTol s o ::
        irlsTrace minGNiter fminChange mTol (updateIRLS minGNiter fminChange mTol s o) os

theorem updateIRLS_inv (minGNiter : Nat) (fminChange mTol : ℚ)
    (s : IRLSSched) (o : IRLSObs)
    (hs : s.mode ≠ IRLSMode.preIRLS → minGNiter ≤ s.gnIter) :
    (updateIRLS minGNiter fminChange mTol s o).mode ≠ IRLSMode.preIRLS →
      minGNiter ≤ (updateIRLS minGNiter fminChange mTol s o).gnIter := by
  unfold updateIRLS
  cases hm : s.mode with
  | preIRLS =>
    simp only
    split
    · next hcond =>
        intro _
        simpa using hcond.1
    · intro hcontra
      simp at hcontra
  | activeIRLS =>
    have hge := hs (by rw [hm]; intro hc; exact IRLSMode.noConfusion hc)
    simp only
    split <;> (intro _; simpa using hge)
  | convergedIRLS =>
    intro _
    exact hs (by rw [hm]; intro hc; exact IRLSMode.noConfusion hc)

theorem irlsTrace_inv (minGNiter : Nat) (fminChange mTol : ℚ)
    (s : IRLSSched) (os : List IRLSObs)
    (hs : s.mode ≠ IRLSMode.preIRLS → minGNiter ≤ s.gnIter) :
    ∀ t ∈ irlsTrace minGNiter fminChange mTol s os,
      t.mode ≠ IRLSMode.preIRLS → minGNiter ≤ t.gnIter := by
  induction os generalizing s with
  | nil => intro t ht; simp [irlsTrace] at ht
  | cons o os ih =>
    intro t ht
    simp only [irlsTrace, List.mem_cons] at ht
    rcases ht with rfl | hmem
    · exact updateIRLS_inv minGNiter fminChange mTol s o hs
    · exact ih _ (updateIRLS_inv minGNiter fminChange mTol s o hs) t hmem

/-- Claim C8: With the notebook configuration `minGNiter = 3`,
`f_min_change = 1e-3`: in every run of the schedule from its initial state,
any state of the trace that has left the smooth phase (entered ACTIVE_IRLS
or later) has completed at least `3` smooth Gauss-Newton iterations; and the
transition out of the smooth phase can only fire when at least `3`
iterations are done and the misfit change is within the `f_min_change`
threshold. -/
theorem irls_no_premature_activation (mTol : ℚ) (os : List IRLSObs)
    (t : IRLSSched) (ht : t ∈ irlsTrace 3 (1 / 1000) mTol irlsInit os) :
    (t.mode ≠ IRLSMode.preIRLS → 3 ≤ t.gnIter) ∧
      ∀ s o, s.mode = IRLSMode.preIRLS →
        (updateIRLS 3 (1 / 1000) mTol s o).mode = IRLSMode.activeIRLS →
          3 ≤ s.gnIter + 1 ∧ fPlateau (1 / 1000) o := by
  constructor
  · exact irlsTrace_inv 3 (1 / 1000) mTol irlsInit os (by simp [irlsInit]) t ht
  · intro s o hsm hact
    unfold updateIRLS at hact
    rw [hsm] at hact
    by_cases hcond : 3 ≤ s.gnIter + 1 ∧ fPlateau (1 / 1000) o
    · exact hcond
    · simp only [if_neg hcond] at hact
      exact absurd hact (by simp)

theorem irls_no_premature_activation_witness :
    (⟨IRLSMode.activeIRLS, 3⟩ : IRLSSched) ∈
        irlsTrace 3 (1 / 1000) 0 irlsInit
          [⟨1, 1, 1⟩, ⟨1, 1, 1⟩, ⟨1, 1, 1⟩] ∧
      (((⟨IRLSMode.activeIRLS, 3⟩ : IRLSSched).mode ≠ IRLSMode.preIRLS →
          3 ≤ (⟨IRLSMode.activeIRLS, 3⟩ : IRLSSched).gnIter) ∧
        ∀ s o, s.mode = IRLSMode.preIRLS →
          (updateIRLS 3 (1 / 1000) 0 s o).mode = IRLSMode.activeIRLS →
            3 ≤ s.gnIter + 1 ∧ fPlateau (1 / 1000) o) :=
  ⟨by norm_num [irlsTrace, updateIRLS, irlsInit, fPlateau],
    irls_no_premature_activation 0 [⟨1, 1, 1⟩, ⟨1, 1, 1⟩, ⟨1, 1, 1⟩]
      ⟨IRLSMode.activeIRLS, 3⟩
      (by norm_num [irlsTrace, updateIRLS, irlsInit, fPlateau])⟩

/-- Modelled from the spec: the outer loop of the inversion driver behind
`inv.run` (not under `src/`): up to `budget` outer iterations; each checks
the convergence test and otherwise applies one optimizer iteration; when the
budget is exhausted the loop stops with the current model and a `false`
convergence flag. -/
def driverLoop (step : List ℚ → List ℚ) (conv : List ℚ → Bool) :
    Nat → List ℚ → List ℚ × Bool
  | 0, m => (m, false)
  | n + 1, m => if conv m then (m, true) else driverLoop step conv n (step m)

/-- Modelled from the spec: `inv.run m0` as a fallible call: it returns
`Except.ok` of the model and convergence flag (an `Except.error` would model
an exception escaping the driver). -/
def invRun (step : List ℚ → List ℚ) (conv : List ℚ → Bool) (budget : Nat)
    (m0 : List ℚ) : Except String (List ℚ × Bool) :=
  Except.ok (driverLoop step conv budget m0)

theorem driverLoop_exhausted (step : List ℚ → List ℚ) (conv : List ℚ → Bool)
    (h : ∀ m, conv m = false) (n : Nat) (m0 : List ℚ) :
    driverLoop step conv n m0 = (step^[n] m0, false) := by
  induction n generalizing m0 with
  | zero => rfl
  | succ k ih =>
    show (if conv m0 then (m0, true) else driverLoop step conv k (step m0)) = _
    rw [h m0, if_neg (by simp), ih (step m0), Function.iterate_succ_apply]

/-- Claim C9: With the outer iteration budget of the notebook, `maxIter = 100`: on
every input whose convergence test never passes, `inv.run` returns normally
(`Except.ok`, no exception) with the model obtained after the 100 iterations
and a convergence flag equal to `false`. -/
theorem invRun_budget_exhausted (step : List ℚ → List ℚ) (conv : List ℚ → Bool)
    (m0 : List ℚ) (h : ∀ m, conv m = false) :
    invRun step conv 100 m0 = Except.ok (step^[100] m0, false) := by
  unfold invRun
  rw [driverLoop_exhausted step conv h 100 m0]

theorem invRun_budget_exhausted_witness :
    (∀ m : List ℚ, (fun _ : List ℚ => false) m = false) ∧
      invRun (fun m => m) (fun _ => false) 100 [] =
        Except.ok ((fun m : List ℚ => m)^[100] [], false) :=
  ⟨fun _ => rfl, invRun_budget_exhausted (fun m => m) (fun _ => false) [] (fun _ => rfl)⟩

/-- Python `enumerate(actv, start)`: each element of the list paired with
its index, counting from `start`. -/
def enumFrom (start : Nat) : List Bool → List (Nat × Bool)
  | [] => []
  | b :: bs => (start, b) :: enumFrom (start + 1) bs

/-- The active-index expression of the notebook, embedded from the source:
`np.asarray([inds for inds, elem in enumerate(actv, 1) if elem], dtype=int) - 1`. -/
def actvFromCode (actv : List Bool) : List Nat :=
  (((enumFrom 1 actv).filter (fun p => p.2)).map (fun p => p.1)).map (fun n => n - 1)

/-- The reference semantics of the claim, `np.where(actv)[0]`: the zero-based
positions whose entry is `True`, listed in order. -/
def npWhere (actv : List Bool) : List Nat :=
  (List.range actv.length).filter (fun i => actv.getD i false)

theorem enumFrom_filter_map (bs : List Bool) (n : Nat) :
    ((enumFrom n bs).filter (fun p => p.2)).map (fun p => p.1) =
      (npWhere bs).map (fun i => i + n) := by
  induction bs generalizing n with
  | nil => rfl
  | cons b bs ih =>
    have hrhs : npWhere (b :: bs) =
        (if b then [0] else []) ++ (npWhere bs).map Nat.succ := by
      unfold npWhere
      rw [List.length_cons, List.range_succ_eq_map, List.filter_cons]
      have hgd : ((b :: bs).getD 0 false) = b := rfl
      rw [List.filter_map]
      cases b <;> simp [Function.comp_def]
    have hl : enumFrom n (b :: bs) = (n, b) :: enumFrom (n + 1) bs := rfl
    rw [hrhs, hl, List.filter_cons]
    cases b <;>
      simp only [Bool.false_eq_true, if_false, if_true, List.map_cons, ih (n + 1),
        List.nil_append, List.cons_append, List.map_append, List.map_map,
        Function.comp_def, Nat.succ_eq_add_one, Nat.zero_add] <;>
      simp [Nat.add_assoc, Nat.add_comm 1 n]

/-- Claim C10: The active-index expression of the notebook (1-based `enumerate`,
filter on the flag, then subtract 1) computes exactly `np.where(actv)[0]`:
the zero-based indices of the `True` entries, which are pairwise strictly
ascending and characterized by membership. -/
theorem actvFromCode_eq_npWhere (actv : List Bool) :
    actvFromCode actv = npWhere actv ∧
      (npWhere actv).Pairwise (· < ·) ∧
      ∀ i, i ∈ npWhere actv ↔ i < actv.length ∧ actv.getD i false = true := by
  refine ⟨?_, ?_, ?_⟩
  · unfold actvFromCode
    rw [enumFrom_filter_map actv 1]
    simp [Function.comp_def]
  · exact List.Pairwise.filter _ (List.pairwise_lt_range _)
  · intro i
    unfold npWhere
    rw [List.mem_filter, List.mem_range]

end MagTutorial
